import Mathlib

/-!
Verification of the segmentation-and-assembly pipeline of `video_mixer.py`
(`VideoProcessor.split_video` and `VideoProcessor.run`).

Timestamps and durations are modelled as exact rationals.  The interactions
with the outside world (whether a file opens, whether it has an audio track,
the beat times the audio analysis returns, whether a subclip's frame 0 is
readable, whether the final write succeeds) are modelled as oracle fields of
`FileWorld` / `RunWorld`; the control flow acting on those oracles is
translated line by line from the Python source.
-/

/-- A clip handle: the recorded source path (`clip.filename`), and the
subclip's start/end times in seconds. -/
structure CandidateClip where
  source : String
  start : ℚ
  stop : ℚ
  deriving DecidableEq

/-- The `clip.duration` of a subclip: end minus start. -/
def dur (c : CandidateClip) : ℚ := c.stop - c.start

/-- Sum of the durations of a list of clips. -/
def sumDur (l : List CandidateClip) : ℚ := (l.map dur).sum

/-- Models `np.arange(0, d, 3.0)` (lines 53 and 75): the multiples of 3 in `[0, d)`,
in increasing order; there are `⌈d/3⌉` of them, written as `-⌊-(d/3)⌋`. -/
def fixedCadence (d : ℚ) : List ℚ :=
  (List.range (-(-(d / 3)).floor).toNat).map (fun i : ℕ => (3 : ℚ) * (i : ℚ))

/-- Lines 78-82: keep only boundaries `< duration`; if the result is empty or
its last element is below the duration, append the duration. -/
def postprocess (pts : List ℚ) (d : ℚ) : List ℚ :=
  let f := pts.filter (fun x => decide (x < d))
  if f.getLast?.all (fun x => decide (x < d)) then f ++ [d] else f

/-- Lines 72-82: fall back to the fixed cadence when fewer than 2 raw points
were produced, then post-process. -/
def boundaries (raw : List ℚ) (d : ℚ) : List ℚ :=
  postprocess (if raw.length < 2 then fixedCadence d else raw) d

/-- The per-file facts of the outside world that `split_video` consults. -/
structure FileWorld where
  path : String
  /-- loading/decoding raises before the cutting loop starts
  (`VideoFileClip` constructor or `librosa.load` throwing). -/
  raises : Bool
  /-- the file opens and its reader is non-`None` (line 46). -/
  openOk : Bool
  /-- `video.audio is not None` (line 50). -/
  hasAudio : Bool
  /-- the beat times returned by the audio analysis (line 69). -/
  beats : List ℚ
  /-- `video.duration`. -/
  duration : ℚ
  /-- whether `subclip(s, e)` yields a live reader whose frame 0 is readable
  at cutting time (lines 96-100, exceptions included). -/
  clipOk : ℚ → ℚ → Bool

/-- Lines 50-69: beat-derived points when there is an audio track, the fixed
cadence otherwise. -/
def rawPoints (f : FileWorld) : List ℚ :=
  if f.hasAudio then f.beats else fixedCadence f.duration

/-- The boundary sequence `split_video` ends up with after line 82. -/
def splitPoints (f : FileWorld) : List ℚ :=
  boundaries (rawPoints f) f.duration

/-- Line 103: `int((i + 1) / total_points * 30)`. -/
def emitVal (total i : ℕ) : ℤ :=
  Rat.floor (((i : ℚ) + 1) / (total : ℚ) * 30)

/-- Lines 89-107: the cutting loop over adjacent boundary pairs, returning the
clips produced and the progress values emitted, in order. -/
def cutAux (p : String) (ok : ℚ → ℚ → Bool) (total : ℕ) :
    ℕ → List (ℚ × ℚ) → List CandidateClip × List ℤ
  | _, [] => ([], [])
  | i, (s, e) :: rest =>
    let r := cutAux p ok total (i + 1) rest
    if (1 : ℚ) / 2 < e - s ∧ e - s < 10 then
      if ok s e then (⟨p, s, e⟩ :: r.1, emitVal total i :: r.2) else r
    else r

/-- Lines 84-107: cut one file along its boundary sequence. -/
def cutFile (p : String) (ok : ℚ → ℚ → Bool) (pts : List ℚ) :
    List CandidateClip × List ℤ :=
  cutAux p ok (pts.zip pts.tail).length 0 (pts.zip pts.tail)

/-- Lines 39-116: `split_video` for one file.  `error` is an exception
propagating to the caller; an unopenable file yields `ok ([], [])`
(line 48). -/
def splitVideo (f : FileWorld) : Except Unit (List CandidateClip × List ℤ) :=
  if f.raises then .error ()
  else if f.openOk then .ok (cutFile f.path f.clipOk (splitPoints f))
  else .ok ([], [])

/-- Lines 135-142: one iteration of the batch loop: a raising file is logged
and skipped, otherwise its clips and progress emissions are appended. -/
def batchStep (acc : List CandidateClip × List ℤ) (f : FileWorld) :
    List CandidateClip × List ℤ :=
  match splitVideo f with
  | .error _ => acc
  | .ok r => (acc.1 ++ r.1, acc.2 ++ r.2)

/-- Lines 132-142: the batch loop over all input files. -/
def batchResult (files : List FileWorld) : List CandidateClip × List ℤ :=
  files.foldl batchStep ([], [])

/-- Lines 157-171: the greedy selection loop.  `rd c` models the per-clip
validity-and-frame-readability check of lines 159-162 (an exception during it
counts as `false`); returns the accepted clips and the final accumulated
duration. -/
def selectLoop (rd : CandidateClip → Bool) (T : ℚ) :
    ℚ → List CandidateClip → List CandidateClip × ℚ
  | cur, [] => ([], cur)
  | cur, c :: rest =>
    if rd c then
      if cur + dur c ≤ T then
        if T ≤ cur + dur c then ([c], cur + dur c)
        else
          let r := selectLoop rd T (cur + dur c) rest
          (c :: r.1, r.2)
      else if T ≤ cur then ([], cur)
      else selectLoop rd T cur rest
    else selectLoop rd T cur rest

/-- The whole-run facts of the outside world that `run` consults. -/
structure RunWorld where
  files : List FileWorld
  /-- the permutation `random.shuffle` applies to the pool (line 149). -/
  shuffle : List CandidateClip → List CandidateClip
  /-- `random.uniform(30, 60)` (line 152). -/
  target : ℚ
  /-- the selection-phase validity/frame check on a pooled clip handle
  (lines 159-162). -/
  selOk : CandidateClip → Bool
  /-- whether `VideoFileClip(path)` re-opens with a live reader
  (lines 181-182). -/
  reopenOk : String → Bool
  /-- the duration of the freshly re-opened whole file. -/
  reopenDuration : String → ℚ
  /-- whether frame 0 of a freshly re-opened file is readable; the code never
  consults this during re-validation. -/
  frame0 : String → Bool
  /-- whether `write_videofile` succeeds (lines 202-209). -/
  writeOk : Bool
  /-- the timestamped output path (lines 196-198). -/
  outPath : String

/-- Lines 176-186: the re-validation pass: re-open each accepted clip's source
file by its recorded path; keep it iff the fresh open has a live reader.  The
kept handle is the whole source file, not the original sub-segment. -/
def revalidate (w : RunWorld) (clips : List CandidateClip) : List CandidateClip :=
  clips.filterMap fun c =>
    if w.reopenOk c.source then some ⟨c.source, 0, w.reopenDuration c.source⟩
    else none

/-- A notification on the `progress` or `finished` signal.  (`status` strings
carry no contract-relevant data and are omitted.) -/
inductive Event where
  | progress (v : ℤ)
  | finishedSig (payload : String)
  deriving DecidableEq

/-- The failure exits of `run` (each a `ValueError` in the source). -/
inductive RunError where
  | noInput
  | noClips
  | insufficientClips
  | noValidClips
  | writeError
  deriving DecidableEq

/-- Lines 127-226: the whole run: batch extraction, selection, re-validation,
write; the exception handler of lines 222-226 emits `progress 0`, the success
path emits `progress 100` (line 220).  Returns the run result and the ordered
notification trace. -/
def runModel (w : RunWorld) : Except RunError String × List Event :=
  if w.files.isEmpty then (.error .noInput, [.progress 0])
  else
    let br := batchResult w.files
    let pe := br.2.map Event.progress
    if br.1.isEmpty then (.error .noClips, pe ++ [.progress 0])
    else
      let final := (selectLoop w.selOk w.target 0 (w.shuffle br.1)).1
      if final.isEmpty then (.error .insufficientClips, pe ++ [.progress 0])
      else
        let valid := revalidate w final
        if valid.isEmpty then (.error .noValidClips, pe ++ [.progress 0])
        else if w.writeOk then (.ok w.outPath, pe ++ [.progress 100])
        else (.error .writeError, pe ++ [.progress 0])

/-- The values observed on the progress channel during a run. -/
def progressValues (t : List Event) : List ℤ :=
  t.filterMap fun e => match e with
    | .progress v => some v
    | .finishedSig _ => none

/-- Whether an event is an emission of the `finished` signal. -/
def isFinishedEvent : Event → Bool
  | .finishedSig _ => true
  | .progress _ => false

/-- The executable `Rat.floor` agrees with `Int.floor` of the `FloorRing ℚ` instance. -/
theorem rat_floor_eq (q : ℚ) : q.floor = ⌊q⌋ :=
  (Rat.floor_def' q).trans Rat.floor_def.symm

/-- Every element a `filter (· < d)` keeps is below `d`. -/
theorem mem_filter_lt {pts : List ℚ} {d x : ℚ}
    (hx : x ∈ pts.filter (fun x => decide (x < d))) : x < d := by
  simpa using (List.mem_filter.mp hx).2

/-- The filtered sequence always ends below `d`, so the code's
append-the-duration branch (lines 81-82) is always taken. -/
theorem postprocess_eq (pts : List ℚ) (d : ℚ) :
    postprocess pts d = pts.filter (fun x => decide (x < d)) ++ [d] := by
  simp only [postprocess]
  have hcond : (pts.filter (fun x => decide (x < d))).getLast?.all
      (fun x => decide (x < d)) = true := by
    cases h : (pts.filter (fun x => decide (x < d))).getLast? with
    | none => rfl
    | some x =>
      have hx : x ∈ pts.filter (fun x => decide (x < d)) := by
        obtain ⟨hne, hxl⟩ := List.mem_getLast?_eq_getLast (Option.mem_def.mpr h)
        exact hxl ▸ List.getLast_mem hne
      simpa using mem_filter_lt hx
  rw [hcond]
  simp

/-- The fixed 3-second cadence is strictly increasing. -/
theorem fixedCadence_sorted (d : ℚ) : (fixedCadence d).Pairwise (· < ·) := by
  show (((List.range (-(-(d / 3)).floor).toNat)).map (fun i : ℕ => (3 : ℚ) * (i : ℚ))).Pairwise (· < ·)
  exact List.Pairwise.map (fun i : ℕ => (3 : ℚ) * (i : ℚ))
    (fun a b hab => by
      show (3 : ℚ) * a < 3 * b
      have h : (a : ℚ) < (b : ℚ) := Nat.cast_lt.mpr hab
      linarith)
    (List.pairwise_lt_range _)

/-- Post-processing a strictly increasing raw sequence yields a strictly
increasing, non-empty sequence that is bounded by `d` and ends with `d`. -/
theorem postprocess_props (pts : List ℚ) (d : ℚ) (hs : pts.Pairwise (· < ·)) :
    postprocess pts d ≠ [] ∧ (postprocess pts d).Pairwise (· < ·) ∧
    (∀ x ∈ postprocess pts d, x ≤ d) ∧ (postprocess pts d).getLast? = some d := by
  rw [postprocess_eq]
  refine ⟨by simp, ?_, ?_, List.getLast?_concat _⟩
  · rw [List.pairwise_append]
    exact ⟨hs.filter _, List.pairwise_singleton _ _,
      fun x hx y hy => (List.mem_singleton.mp hy) ▸ mem_filter_lt hx⟩
  · intro x hx
    rcases List.mem_append.mp hx with h | h
    · exact le_of_lt (mem_filter_lt h)
    · exact le_of_eq (List.mem_singleton.mp h)

/-- Same properties for the full boundary computation of lines 72-82. -/
theorem boundaries_props (raw : List ℚ) (d : ℚ) (hs : raw.Pairwise (· < ·)) :
    boundaries raw d ≠ [] ∧ (boundaries raw d).Pairwise (· < ·) ∧
    (∀ x ∈ boundaries raw d, x ≤ d) ∧ (boundaries raw d).getLast? = some d := by
  unfold boundaries
  by_cases h : raw.length < 2
  · simpa [h] using postprocess_props (fixedCadence d) d (fixedCadence_sorted d)
  · simpa [h] using postprocess_props raw d hs

/-- C1: for every input file and every raw boundary sequence (audio-derived,
assumed strictly increasing as `librosa` returns it, or the fixed 3-second
fallback), the post-processed boundary sequence of `split_video` is strictly
increasing, non-empty, bounded above by the file's duration, and has the
duration itself as its final element. -/
theorem split_boundaries_valid (f : FileWorld)
    (hbeats : f.hasAudio = true → f.beats.Pairwise (· < ·)) :
    splitPoints f ≠ [] ∧ (splitPoints f).Pairwise (· < ·) ∧
    (∀ x ∈ splitPoints f, x ≤ f.duration) ∧
    (splitPoints f).getLast? = some f.duration := by
  unfold splitPoints rawPoints
  by_cases h : f.hasAudio
  · simpa [h] using boundaries_props f.beats f.duration (by simpa using hbeats (by simpa using h))
  · simpa [h] using boundaries_props (fixedCadence f.duration) f.duration
      (fixedCadence_sorted f.duration)

/-- Witness for `split_boundaries_valid` at a concrete audio-less 20-second
file. -/
theorem split_boundaries_valid_witness :
    splitPoints ⟨"a", false, true, false, [], 20, fun _ _ => true⟩ ≠ [] :=
  (split_boundaries_valid ⟨"a", false, true, false, [], 20, fun _ _ => true⟩
    (by intro h; cases h)).1

/-- The 20-second audio-less input file of Scenario A. -/
def fileA20 : FileWorld :=
  ⟨"a20", false, true, false, [], 20, fun _ _ => true⟩

/-- Concrete evaluation: the fallback cadence for a 20-second file. -/
theorem fixedCadence_20 : fixedCadence 20 = [0, 3, 6, 9, 12, 15, 18] := by
  have h7 : (⌈(20:ℚ) / 3⌉ : ℤ) = 7 := by
    rw [Int.ceil_eq_iff]
    norm_num
  have h : (-(-((20:ℚ) / 3)).floor).toNat = 7 := by
    rw [rat_floor_eq, Int.floor_neg, neg_neg, h7]
    rfl
  rw [fixedCadence, h]
  norm_num [List.range_succ]

/-- Concrete evaluation: the boundary sequence of a 20-second audio-less
file. -/
theorem splitPoints_fileA20 :
    splitPoints fileA20 = [0, 3, 6, 9, 12, 15, 18, 20] := by
  rw [splitPoints, fileA20]
  show boundaries (rawPoints _) 20 = _
  rw [rawPoints]
  norm_num [fixedCadence_20, boundaries, postprocess_eq, List.filter]

/-- C8 counterexample: a 20-second audio-less file yields the boundary
sequence `(0, 3, ..., 18, 20)`, which has 8 elements, not 7. -/
theorem scenarioA_boundary_count_not_seven :
    splitPoints fileA20 = [0, 3, 6, 9, 12, 15, 18, 20] ∧
    (splitPoints fileA20).length ≠ 7 := by
  rw [splitPoints_fileA20]
  exact ⟨rfl, by norm_num⟩

/-- C8 amended: a 20-second audio-less file yields exactly 8 boundaries,
namely `(0, 3, 6, 9, 12, 15, 18, 20)`, hence 7 adjacent segments. -/
theorem scenarioA_boundary_count :
    splitPoints fileA20 = [0, 3, 6, 9, 12, 15, 18, 20] ∧
    (splitPoints fileA20).length = 8 := by
  rw [splitPoints_fileA20]
  exact ⟨rfl, by norm_num⟩

/-- Every clip the cutting loop records has duration strictly between 0.5 and
10 (the guard of line 94). -/
theorem cutAux_mem_dur (p : String) (ok : ℚ → ℚ → Bool) (total : ℕ) :
    ∀ (i : ℕ) (pairs : List (ℚ × ℚ)) (c : CandidateClip),
      c ∈ (cutAux p ok total i pairs).1 → (1 : ℚ) / 2 < dur c ∧ dur c < 10 := by
  intro i pairs
  induction pairs generalizing i with
  | nil => intro c hc; simp [cutAux] at hc
  | cons pr rest ih =>
    obtain ⟨s, e⟩ := pr
    intro c hc
    simp only [cutAux] at hc
    split at hc
    · next hcond =>
      split at hc
      · rcases List.mem_cons.mp hc with rfl | hmem
        · simpa [dur] using hcond
        · exact ih (i + 1) c hmem
      · exact ih (i + 1) c hc
    · exact ih (i + 1) c hc

/-- C2: every `CandidateClip` recorded by `split_video` has duration strictly
greater than 0.5 and strictly less than 10.0 seconds, and an adjacent boundary
pair whose gap lies outside this open interval never produces a clip. -/
theorem clip_duration_bounds (p : String) (ok : ℚ → ℚ → Bool) (pts : List ℚ) :
    (∀ c ∈ (cutFile p ok pts).1, (1 : ℚ) / 2 < dur c ∧ dur c < 10) ∧
    (∀ s e : ℚ, (e - s ≤ 1 / 2 ∨ 10 ≤ e - s) →
      CandidateClip.mk p s e ∉ (cutFile p ok pts).1) := by
  constructor
  · intro c hc
    exact cutAux_mem_dur p ok _ 0 _ c hc
  · intro s e hse hmem
    have h := cutAux_mem_dur p ok _ 0 _ _ hmem
    simp only [dur] at h
    rcases hse with h1 | h1 <;>
      [exact absurd h.1 (by simpa using h1); exact absurd h.2 (by simpa using h1)]

/-- Witness for `clip_duration_bounds`: a 20-second gap produces no clip. -/
theorem clip_duration_bounds_witness :
    CandidateClip.mk "a" 0 20 ∉ (cutFile "a" (fun _ _ => true) [0, 20]).1 :=
  (clip_duration_bounds "a" (fun _ _ => true) [0, 20]).2 0 20 (by norm_num)

/-- The final accumulated duration of the selection loop equals the starting
accumulator plus the durations of the accepted clips. -/
theorem selectLoop_sum (rd : CandidateClip → Bool) (T : ℚ) :
    ∀ (l : List CandidateClip) (cur : ℚ),
      (selectLoop rd T cur l).2 = cur + sumDur (selectLoop rd T cur l).1 := by
  intro l
  induction l with
  | nil => intro cur; simp [selectLoop, sumDur]
  | cons c rest ih =>
    intro cur
    simp only [selectLoop]
    split
    · split
      · split
        · simp [sumDur, dur]
        · have h := ih (cur + dur c)
          simp only [sumDur, List.map_cons, List.sum_cons] at h ⊢
          rw [h]
          ring
      · split
        · simp [sumDur]
        · exact ih cur
    · exact ih cur

/-- The selection loop never lets the accumulator exceed the target. -/
theorem selectLoop_le (rd : CandidateClip → Bool) (T : ℚ) :
    ∀ (l : List CandidateClip) (cur : ℚ), cur ≤ T →
      (selectLoop rd T cur l).2 ≤ T := by
  intro l
  induction l with
  | nil => intro cur h; simpa [selectLoop] using h
  | cons c rest ih =>
    intro cur h
    simp only [selectLoop]
    split
    · split
      · next hle =>
        split
        · simpa using hle
        · exact ih (cur + dur c) hle
      · split
        · simpa using h
        · exact ih cur h
    · exact ih cur h

/-- C3: with the target duration `T` drawn once in `[30, 60]`, the greedy
loop accepts a clip only when the accumulated duration stays `≤ T`, so at
every step (any accumulator `cur ≤ T`, any remaining list) the accumulated
total stays `≤ T`; and the loop returns immediately after an acceptance
that reaches or exceeds `T`. -/
theorem selection_respects_target (rd : CandidateClip → Bool) (T : ℚ)
    (hT : 30 ≤ T) (hT2 : T ≤ 60) (pool : List CandidateClip) :
    sumDur (selectLoop rd T 0 pool).1 ≤ T ∧
    (∀ (cur : ℚ) (l : List CandidateClip), cur ≤ T →
      cur + sumDur (selectLoop rd T cur l).1 ≤ T) ∧
    (∀ (cur : ℚ) (c : CandidateClip) (rest : List CandidateClip),
      rd c = true → cur + dur c ≤ T → T ≤ cur + dur c →
      selectLoop rd T cur (c :: rest) = ([c], cur + dur c)) := by
  have key : ∀ (cur : ℚ) (l : List CandidateClip), cur ≤ T →
      cur + sumDur (selectLoop rd T cur l).1 ≤ T := by
    intro cur l hcur
    have h := selectLoop_le rd T l cur hcur
    rwa [selectLoop_sum rd T l cur] at h
  refine ⟨?_, key, ?_⟩
  · have h := key 0 pool (by linarith)
    linarith
  · intro cur c rest hrd hle hge
    simp [selectLoop, hrd, hle, hge]

/-- Witness for `selection_respects_target` at `T = 30` and the empty pool. -/
theorem selection_respects_target_witness :
    sumDur (selectLoop (fun _ => true) 30 0 []).1 ≤ 30 :=
  (selection_respects_target (fun _ => true) 30 (by norm_num) (by norm_num) []).1

/-- What one file contributes to the batch loop: nothing if `split_video`
raises, its clips and emissions otherwise. -/
def fileContrib (f : FileWorld) : List CandidateClip × List ℤ :=
  match splitVideo f with
  | .error _ => ([], [])
  | .ok r => r

/-- Unrolling the batch fold. -/
theorem foldl_batchStep (fs : List FileWorld) :
    ∀ acc, fs.foldl batchStep acc =
      (acc.1 ++ (fs.map (fun f => (fileContrib f).1)).flatten,
       acc.2 ++ (fs.map (fun f => (fileContrib f).2)).flatten) := by
  induction fs with
  | nil => intro acc; simp
  | cons f rest ih =>
    intro acc
    rw [List.foldl_cons, ih]
    have hstep : batchStep acc f =
        (acc.1 ++ (fileContrib f).1, acc.2 ++ (fileContrib f).2) := by
      unfold batchStep fileContrib
      cases splitVideo f <;> simp
    rw [hstep]
    simp

/-- The batch loop aggregates the per-file contributions in input order. -/
theorem batchResult_eq (fs : List FileWorld) :
    batchResult fs = ((fs.map (fun f => (fileContrib f).1)).flatten,
      (fs.map (fun f => (fileContrib f).2)).flatten) := by
  unfold batchResult
  rw [foldl_batchStep]
  simp

/-- Every pooled clip comes from the cutting loop of some input file. -/
theorem mem_batch_pool {fs : List FileWorld} {c : CandidateClip}
    (hc : c ∈ (batchResult fs).1) :
    ∃ f ∈ fs, c ∈ (cutFile f.path f.clipOk (splitPoints f)).1 := by
  rw [batchResult_eq] at hc
  simp only [List.mem_flatten, List.mem_map] at hc
  obtain ⟨l, ⟨f, hf, rfl⟩, hcl⟩ := hc
  refine ⟨f, hf, ?_⟩
  by_cases hr : f.raises
  · simp [fileContrib, splitVideo, hr] at hcl
  · by_cases ho : f.openOk
    · simpa [fileContrib, splitVideo, hr, ho] using hcl
    · simp [fileContrib, splitVideo, hr, ho] at hcl

/-- Every pooled clip has duration strictly between 0.5 and 10. -/
theorem batch_pool_dur {fs : List FileWorld} {c : CandidateClip}
    (hc : c ∈ (batchResult fs).1) : (1 : ℚ) / 2 < dur c ∧ dur c < 10 := by
  obtain ⟨f, _, hcf⟩ := mem_batch_pool hc
  exact cutAux_mem_dur _ _ _ 0 _ c hcf

/-- C10: if the candidate pool is non-empty and every pooled clip passes the
selection-phase frame-readability check, at least one clip is accepted, so
the `InsufficientClips` branch is unreachable: every pooled clip is shorter
than 10 seconds while the target is at least 30, so the first clip of the
shuffled order is always accepted. -/
theorem first_clip_always_accepted (w : RunWorld)
    (hT : 30 ≤ w.target)
    (hpool : (batchResult w.files).1 ≠ [])
    (hperm : (w.shuffle (batchResult w.files).1).Perm (batchResult w.files).1)
    (hrd : ∀ c ∈ (batchResult w.files).1, w.selOk c = true) :
    (selectLoop w.selOk w.target 0 (w.shuffle (batchResult w.files).1)).1 ≠ [] := by
  cases hsh : w.shuffle (batchResult w.files).1 with
  | nil =>
    rw [hsh] at hperm
    exact absurd hperm.symm.eq_nil hpool
  | cons c rest =>
    rw [hsh] at hperm
    have hcmem : c ∈ (batchResult w.files).1 :=
      hperm.subset (List.mem_cons_self c rest)
    have hdur := batch_pool_dur hcmem
    have hle : 0 + dur c ≤ w.target := by linarith [hdur.2]
    simp only [selectLoop, hrd c hcmem, if_true, hle]
    split <;> simp

/-- If the input list is non-empty and the pool comes up empty, the run fails
with `NoClips` and the failure handler emits a final `progress 0`. -/
theorem runModel_noClips {w : RunWorld} (hne : w.files ≠ [])
    (hpool : (batchResult w.files).1 = []) :
    runModel w = (.error .noClips,
      (batchResult w.files).2.map Event.progress ++ [.progress 0]) := by
  simp only [runModel]
  rw [if_neg (by simpa using hne), if_pos (by simpa using hpool)]

/-- If selection accepts clips but re-validation drops them all, the run
fails with `NoValidClips`. -/
theorem runModel_noValidClips {w : RunWorld} (hne : w.files ≠ [])
    (hpool : (batchResult w.files).1 ≠ [])
    (hfin : (selectLoop w.selOk w.target 0 (w.shuffle (batchResult w.files).1)).1 ≠ [])
    (hval : revalidate w (selectLoop w.selOk w.target 0
      (w.shuffle (batchResult w.files).1)).1 = []) :
    runModel w = (.error .noValidClips,
      (batchResult w.files).2.map Event.progress ++ [.progress 0]) := by
  simp only [runModel]
  rw [if_neg (by simpa using hne), if_neg (by simpa using hpool),
    if_neg (by simpa using hfin), if_pos (by simpa using hval)]

/-- When every stage succeeds, the run returns the output path and a final
`progress 100`. -/
theorem runModel_success {w : RunWorld} (hne : w.files ≠ [])
    (hpool : (batchResult w.files).1 ≠ [])
    (hfin : (selectLoop w.selOk w.target 0 (w.shuffle (batchResult w.files).1)).1 ≠ [])
    (hval : revalidate w (selectLoop w.selOk w.target 0
      (w.shuffle (batchResult w.files).1)).1 ≠ [])
    (hw : w.writeOk = true) :
    runModel w = (.ok w.outPath,
      (batchResult w.files).2.map Event.progress ++ [.progress 100]) := by
  simp only [runModel]
  rw [if_neg (by simpa using hne), if_neg (by simpa using hpool),
    if_neg (by simpa using hfin), if_neg (by simpa using hval), if_pos hw]

/-- C7: a file whose processing raises is logged and skipped while the batch
continues with the remaining files (it contributes nothing to the aggregated
result), and if the aggregated pool is empty after all files, the run fails
with `NoClips` and produces no output path. -/
theorem batch_error_isolation (fs1 fs2 : List FileWorld) (f : FileWorld)
    (hf : f.raises = true) (w : RunWorld) (hne : w.files ≠ [])
    (hpool : (batchResult w.files).1 = []) :
    batchResult (fs1 ++ f :: fs2) = batchResult (fs1 ++ fs2) ∧
    (runModel w).1 = .error .noClips ∧
    (∀ p : String, (runModel w).1 ≠ .ok p) := by
  refine ⟨?_, ?_, ?_⟩
  · rw [batchResult_eq, batchResult_eq]
    simp [fileContrib, splitVideo, hf]
  · rw [runModel_noClips hne hpool]
  · intro p
    rw [runModel_noClips hne hpool]
    simp

/-- Witness for `batch_error_isolation`: a batch whose only file cannot be
opened produces an empty pool and the run fails with `NoClips`. -/
theorem batch_error_isolation_witness :
    (runModel ⟨[⟨"u", false, false, false, [], 5, fun _ _ => true⟩], id, 30,
      fun _ => true, fun _ => true, fun _ => 5, fun _ => true, true, "o"⟩).1 =
      .error .noClips :=
  (batch_error_isolation [] [] ⟨"r", true, true, false, [], 5, fun _ _ => true⟩
    rfl _ (by simp) (by simp [batchResult, batchStep, splitVideo])).2.1

/-- A trace made of progress events only contains no `finished` emission. -/
theorem no_finished_in_progress_trace (t : List ℤ) (z : ℤ) :
    (t.map Event.progress ++ [Event.progress z]).filter isFinishedEvent = [] := by
  induction t with
  | nil => rfl
  | cons a rest ih => simp [isFinishedEvent, ih]

/-- Every run's trace is either the bare failure `progress 0` or the batch
emissions followed by a terminal `progress 0` or `progress 100`. -/
theorem runModel_trace_cases (w : RunWorld) :
    (runModel w).2 = [Event.progress 0] ∨
    ∃ z : ℤ, (z = 0 ∨ z = 100) ∧
      (runModel w).2 = (batchResult w.files).2.map Event.progress ++ [Event.progress z] := by
  simp only [runModel]
  split
  · exact Or.inl rfl
  · split
    · exact Or.inr ⟨0, Or.inl rfl, rfl⟩
    · split
      · exact Or.inr ⟨0, Or.inl rfl, rfl⟩
      · split
        · exact Or.inr ⟨0, Or.inl rfl, rfl⟩
        · split
          · exact Or.inr ⟨100, Or.inr rfl, rfl⟩
          · exact Or.inr ⟨0, Or.inl rfl, rfl⟩

/-- A successful run's trace is the batch emissions followed by
`progress 100`. -/
theorem runModel_ok_trace {w : RunWorld} {p : String} (h : (runModel w).1 = .ok p) :
    (runModel w).2 = (batchResult w.files).2.map Event.progress ++ [Event.progress 100] := by
  by_cases h1 : w.files = []
  · simp [runModel, h1] at h
  · by_cases h2 : (batchResult w.files).1 = []
    · simp [runModel, h1, h2] at h
    · by_cases h3 : (selectLoop w.selOk w.target 0
          (w.shuffle (batchResult w.files).1)).1 = []
      · simp [runModel, h1, h2, h3] at h
      · by_cases h4 : revalidate w (selectLoop w.selOk w.target 0
            (w.shuffle (batchResult w.files).1)).1 = []
        · simp [runModel, h1, h2, h3, h4] at h
        · by_cases h5 : w.writeOk = true
          · simp [runModel, h1, h2, h3, h4, h5]
          · simp [runModel, h1, h2, h3, h4, h5] at h

/-- A world where everything goes right: one 10-second file with audio beats
at 0, 1 and 2, every check passing and the write succeeding. -/
def wSuccess : RunWorld :=
  ⟨[⟨"a", false, true, true, [0, 1, 2], 10, fun _ _ => true⟩], id, 30,
   fun _ => true, fun _ => true, fun _ => 10, fun _ => true, true, "out.mp4"⟩

/-- Concrete evaluation of the batch stage of `wSuccess`. -/
theorem wSuccess_batch : batchResult wSuccess.files =
    ([⟨"a", 0, 1⟩, ⟨"a", 1, 2⟩, ⟨"a", 2, 10⟩], [10, 20, 30]) := by
  show batchResult [⟨"a", false, true, true, [0, 1, 2], 10, fun _ _ => true⟩] = _
  rw [batchResult_eq]
  norm_num [fileContrib, splitVideo, splitPoints, rawPoints, boundaries,
    postprocess_eq, List.filter, cutFile, cutAux, emitVal, rat_floor_eq]

/-- Concrete evaluation of the selection stage of `wSuccess`: the three clips
sum to 10 < 30, so all are accepted. -/
theorem wSuccess_select : selectLoop wSuccess.selOk wSuccess.target 0
    (wSuccess.shuffle (batchResult wSuccess.files).1) =
    ([⟨"a", 0, 1⟩, ⟨"a", 1, 2⟩, ⟨"a", 2, 10⟩], 10) := by
  rw [wSuccess_batch]
  show selectLoop (fun _ => true) 30 0 [⟨"a", 0, 1⟩, ⟨"a", 1, 2⟩, ⟨"a", 2, 10⟩] = _
  norm_num [selectLoop, dur]

/-- Concrete evaluation of the whole `wSuccess` run. -/
theorem wSuccess_run : runModel wSuccess = (.ok "out.mp4",
    [.progress 10, .progress 20, .progress 30, .progress 100]) := by
  have hne : wSuccess.files ≠ [] := by simp [wSuccess]
  have hpool : (batchResult wSuccess.files).1 ≠ [] := by rw [wSuccess_batch]; simp
  have hfin : (selectLoop wSuccess.selOk wSuccess.target 0
      (wSuccess.shuffle (batchResult wSuccess.files).1)).1 ≠ [] := by
    rw [wSuccess_select]; simp
  have hval : revalidate wSuccess (selectLoop wSuccess.selOk wSuccess.target 0
      (wSuccess.shuffle (batchResult wSuccess.files).1)).1 ≠ [] := by
    rw [wSuccess_select]
    simp [revalidate, wSuccess]
  rw [runModel_success hne hpool hfin hval rfl, wSuccess_batch]
  rfl

/-- C5 (code bug): `run()` never emits the declared `finished(str)` signal:
no run's notification trace contains a `finished` event, not even a fully
successful run that produces an output path. -/
theorem finished_signal_never_emitted :
    (∀ w : RunWorld, (runModel w).2.filter isFinishedEvent = []) ∧
    (runModel wSuccess).1 = .ok "out.mp4" := by
  constructor
  · intro w
    rcases runModel_trace_cases w with h | ⟨z, _, h⟩ <;> rw [h]
    · rfl
    · exact no_finished_in_progress_trace _ z
  · rw [wSuccess_run]

/-- The re-validation pass keeps exactly the clips whose source re-opens, and
replaces each by a whole-file handle. -/
theorem revalidate_eq (w : RunWorld) (clips : List CandidateClip) :
    revalidate w clips = (clips.filter (fun c => w.reopenOk c.source)).map
      (fun c => ⟨c.source, 0, w.reopenDuration c.source⟩) := by
  simp only [revalidate]
  induction clips with
  | nil => rfl
  | cons c rest ih =>
    simp only [List.filterMap_cons, List.filter_cons]
    by_cases h : w.reopenOk c.source = true
    · simp only [h, if_true, if_pos, List.map_cons]
      rw [ih]
    · simp only [h, if_false, Bool.false_eq_true]
      exact ih

/-- C6 counterexample: a clip whose freshly re-opened resource has an
unreadable frame 0 still survives re-validation: the code checks only that
the fresh handle has a live reader and never reads frame 0. -/
theorem revalidation_skips_frame_check :
    revalidate ⟨[], id, 30, fun _ => true, fun _ => true, fun _ => 5,
      fun _ => false, true, "o"⟩ [⟨"a", 2, 3⟩] = [⟨"a", 0, 5⟩] ∧
    (⟨[], id, 30, fun _ => true, fun _ => true, fun _ => 5,
      fun _ => false, true, "o"⟩ : RunWorld).frame0 "a" = false :=
  ⟨rfl, rfl⟩

/-- C6 amended: re-validation re-opens each accepted clip's source fresh by
its recorded path and keeps the clip iff the fresh open has a live reader (no
frame-0 readability check at this stage); if no clip survives, the run fails
with `NoValidClips` and no output path. -/
theorem revalidation_reopens_fresh (w : RunWorld) (clips : List CandidateClip) :
    (∀ c' : CandidateClip, c' ∈ revalidate w clips ↔
      ∃ c ∈ clips, w.reopenOk c.source = true ∧
        c' = ⟨c.source, 0, w.reopenDuration c.source⟩) ∧
    (∀ (hne : w.files ≠ []) (hpool : (batchResult w.files).1 ≠ [])
      (hfin : (selectLoop w.selOk w.target 0 (w.shuffle (batchResult w.files).1)).1 ≠ [])
      (hval : revalidate w (selectLoop w.selOk w.target 0
        (w.shuffle (batchResult w.files).1)).1 = []),
      (runModel w).1 = .error .noValidClips ∧ ∀ p : String, (runModel w).1 ≠ .ok p) := by
  constructor
  · intro c'
    simp only [revalidate, List.mem_filterMap]
    constructor
    · rintro ⟨c, hc, hcc⟩
      by_cases h : w.reopenOk c.source = true
      · rw [if_pos h] at hcc
        exact ⟨c, hc, h, (Option.some_inj.mp hcc).symm⟩
      · rw [if_neg h] at hcc
        cases hcc
    · rintro ⟨c, hc, h, rfl⟩
      exact ⟨c, hc, by rw [if_pos h]⟩
  · intro hne hpool hfin hval
    rw [runModel_noValidClips hne hpool hfin hval]
    exact ⟨rfl, by simp⟩

/-- Witness for `revalidation_reopens_fresh`: a surviving whole-file clip. -/
theorem revalidation_reopens_fresh_witness :
    CandidateClip.mk "a" 0 5 ∈ revalidate ⟨[], id, 30, fun _ => true,
      fun _ => true, fun _ => 5, fun _ => false, true, "o"⟩ [⟨"a", 2, 3⟩] :=
  ((revalidation_reopens_fresh ⟨[], id, 30, fun _ => true, fun _ => true,
      fun _ => 5, fun _ => false, true, "o"⟩ [⟨"a", 2, 3⟩]).1 _).mpr
    ⟨⟨"a", 2, 3⟩, by simp, rfl, rfl⟩

/-- C9: every clip handed to concatenation after re-validation is a fresh
whole-file open (start 0, duration the full source duration, not the selected
sub-segment), the assembled output's duration is the sum of those whole-file
durations, and this sum can exceed the target duration. -/
theorem revalidated_output_is_whole_files (w : RunWorld) (clips : List CandidateClip) :
    (∀ c' ∈ revalidate w clips, c'.start = 0 ∧ c'.stop = w.reopenDuration c'.source) ∧
    sumDur (revalidate w clips) = ((clips.filter (fun c => w.reopenOk c.source)).map
      (fun c => w.reopenDuration c.source)).sum ∧
    (∃ (w' : RunWorld) (clips' : List CandidateClip),
      30 ≤ w'.target ∧ w'.target < sumDur (revalidate w' clips')) := by
  refine ⟨?_, ?_, ?_⟩
  · intro c' hc'
    rw [revalidate_eq] at hc'
    obtain ⟨c, hc, rfl⟩ := List.mem_map.mp hc'
    exact ⟨rfl, rfl⟩
  · rw [revalidate_eq, sumDur, List.map_map]
    congr 1
    apply List.map_congr_left
    intro c _
    simp [dur, Function.comp]
  · refine ⟨⟨[], id, 30, fun _ => true, fun _ => true, fun _ => 20, fun _ => true,
      true, "o"⟩, [⟨"a", 0, 1⟩, ⟨"a", 1, 2⟩], by norm_num, ?_⟩
    rw [revalidate_eq]
    norm_num [sumDur, dur, List.filter]

/-- Witness for `revalidated_output_is_whole_files`: a concrete survivor is a
whole-file clip. -/
theorem revalidated_output_is_whole_files_witness :
    (CandidateClip.mk "b" 0 7).start = 0 ∧ (CandidateClip.mk "b" 0 7).stop =
      (⟨[], id, 30, fun _ => true, fun _ => true, fun _ => 7, fun _ => true,
        true, "o"⟩ : RunWorld).reopenDuration (CandidateClip.mk "b" 0 7).source :=
  (revalidated_output_is_whole_files ⟨[], id, 30, fun _ => true, fun _ => true,
      fun _ => 7, fun _ => true, true, "o"⟩ [⟨"b", 1, 3⟩]).1 ⟨"b", 0, 7⟩
    (by rw [revalidate_eq]; simp)

/-- A world whose pool is non-empty and whose pooled clips all pass the
selection check. -/
def w10ex : RunWorld :=
  ⟨[⟨"a", false, true, true, [0, 1], 10, fun _ _ => true⟩], id, 30,
   fun _ => true, fun _ => true, fun _ => 10, fun _ => true, true, "o"⟩

/-- Concrete evaluation of the batch stage of `w10ex`. -/
theorem w10ex_batch : batchResult w10ex.files =
    ([⟨"a", 0, 1⟩, ⟨"a", 1, 10⟩], [15, 30]) := by
  show batchResult [⟨"a", false, true, true, [0, 1], 10, fun _ _ => true⟩] = _
  rw [batchResult_eq]
  norm_num [fileContrib, splitVideo, splitPoints, rawPoints, boundaries,
    postprocess_eq, List.filter, cutFile, cutAux, emitVal, rat_floor_eq]

/-- Witness for `first_clip_always_accepted`. -/
theorem first_clip_always_accepted_witness :
    (selectLoop w10ex.selOk w10ex.target 0
      (w10ex.shuffle (batchResult w10ex.files).1)).1 ≠ [] :=
  first_clip_always_accepted w10ex (by norm_num [w10ex])
    (by rw [w10ex_batch]; simp)
    (by rw [w10ex_batch]; exact List.Perm.refl _)
    (by intro c _; rfl)

/-- Progress values are floors of non-negative rationals. -/
theorem emitVal_nonneg (total i : ℕ) : 0 ≤ emitVal total i := by
  rw [emitVal, rat_floor_eq]
  exact Int.floor_nonneg.mpr (by positivity)

/-- Within one file, an emitted percentage never exceeds 30. -/
theorem emitVal_le_30 (total i : ℕ) (h : i < total) : emitVal total i ≤ 30 := by
  rw [emitVal, rat_floor_eq]
  have htot : (0 : ℚ) < total := by exact_mod_cast Nat.zero_lt_of_lt h
  have h1 : ((i : ℚ) + 1) ≤ (total : ℚ) := by
    push_cast
    exact_mod_cast Nat.succ_le_of_lt h
  have h2 : ((i : ℚ) + 1) / (total : ℚ) ≤ 1 := by
    rw [div_le_one htot]
    exact h1
  have harg : ((i : ℚ) + 1) / (total : ℚ) * 30 ≤ 30 := by linarith
  calc ⌊((i : ℚ) + 1) / (total : ℚ) * 30⌋ ≤ ⌊(30 : ℚ)⌋ := Int.floor_le_floor harg
    _ = 30 := by norm_num

/-- The emitted percentage is monotone in the pair index. -/
theorem emitVal_mono (total : ℕ) {i j : ℕ} (hij : i ≤ j) :
    emitVal total i ≤ emitVal total j := by
  rw [emitVal, emitVal, rat_floor_eq, rat_floor_eq]
  apply Int.floor_le_floor
  rcases Nat.eq_zero_or_pos total with h0 | hpos
  · subst h0
    simp
  · have htot : (0 : ℚ) < total := by exact_mod_cast hpos
    have hc : ((i : ℚ) + 1) ≤ ((j : ℚ) + 1) := by
      have h := (Nat.cast_le (α := ℚ)).mpr hij
      linarith
    have hdiv : ((i : ℚ) + 1) / (total : ℚ) ≤ ((j : ℚ) + 1) / (total : ℚ) :=
      (div_le_div_right htot).mpr hc
    linarith

/-- Every value the cutting loop emits is `emitVal total j` for a pair index
`j` within range. -/
theorem cutAux_emit_mem (p : String) (ok : ℚ → ℚ → Bool) (total : ℕ) :
    ∀ (i : ℕ) (pairs : List (ℚ × ℚ)) (v : ℤ), v ∈ (cutAux p ok total i pairs).2 →
      ∃ j, i ≤ j ∧ j < i + pairs.length ∧ v = emitVal total j := by
  intro i pairs
  induction pairs generalizing i with
  | nil => intro v hv; simp [cutAux] at hv
  | cons pr rest ih =>
    obtain ⟨s, e⟩ := pr
    intro v hv
    simp only [cutAux] at hv
    split at hv
    · split at hv
      · rcases List.mem_cons.mp hv with rfl | hmem
        · exact ⟨i, le_refl i, by simp, rfl⟩
        · obtain ⟨j, hj1, hj2, hj3⟩ := ih (i + 1) v hmem
          refine ⟨j, by omega, ?_, hj3⟩
          simp only [List.length_cons]
          omega
      · obtain ⟨j, hj1, hj2, hj3⟩ := ih (i + 1) v hv
        refine ⟨j, by omega, ?_, hj3⟩
        simp only [List.length_cons]
        omega
    · obtain ⟨j, hj1, hj2, hj3⟩ := ih (i + 1) v hv
      refine ⟨j, by omega, ?_, hj3⟩
      simp only [List.length_cons]
      omega

/-- The progress values emitted while cutting one file are non-decreasing. -/
theorem cutAux_chain (p : String) (ok : ℚ → ℚ → Bool) (total : ℕ) :
    ∀ (i : ℕ) (pairs : List (ℚ × ℚ)), ((cutAux p ok total i pairs).2).Chain' (· ≤ ·) := by
  intro i pairs
  induction pairs generalizing i with
  | nil => simp [cutAux]
  | cons pr rest ih =>
    obtain ⟨s, e⟩ := pr
    simp only [cutAux]
    split
    · split
      · rw [List.chain'_cons']
        refine ⟨?_, ih (i + 1)⟩
        intro y hy
        obtain ⟨j, hj1, _, rfl⟩ :=
          cutAux_emit_mem p ok total (i + 1) rest y (List.mem_of_mem_head? hy)
        exact emitVal_mono total (by omega)
      · exact ih (i + 1)
    · exact ih (i + 1)

/-- Per-file progress emissions lie in `[0, 30]`. -/
theorem cutFile_emit_bounds (p : String) (ok : ℚ → ℚ → Bool) (pts : List ℚ) :
    ∀ v ∈ (cutFile p ok pts).2, 0 ≤ v ∧ v ≤ 30 := by
  intro v hv
  obtain ⟨j, _, hj2, rfl⟩ := cutAux_emit_mem p ok _ 0 _ v hv
  exact ⟨emitVal_nonneg _ _, emitVal_le_30 _ _ (by simpa using hj2)⟩

/-- Per-file progress emissions are non-decreasing. -/
theorem cutFile_chain (p : String) (ok : ℚ → ℚ → Bool) (pts : List ℚ) :
    ((cutFile p ok pts).2).Chain' (· ≤ ·) :=
  cutAux_chain p ok _ 0 _

/-- Batch-stage progress emissions lie in `[0, 30]`. -/
theorem batch_emit_bounds {fs : List FileWorld} {v : ℤ}
    (hv : v ∈ (batchResult fs).2) : 0 ≤ v ∧ v ≤ 30 := by
  rw [batchResult_eq] at hv
  simp only [List.mem_flatten, List.mem_map] at hv
  obtain ⟨l, ⟨f, hf, rfl⟩, hvl⟩ := hv
  by_cases hr : f.raises
  · simp [fileContrib, splitVideo, hr] at hvl
  · by_cases ho : f.openOk
    · exact cutFile_emit_bounds _ _ _ v
        (by simpa [fileContrib, splitVideo, hr, ho] using hvl)
    · simp [fileContrib, splitVideo, hr, ho] at hvl

/-- Every progress value observed during a run lies in `[0, 100]`. -/
theorem run_progress_bounds (w : RunWorld) {v : ℤ}
    (hv : Event.progress v ∈ (runModel w).2) : 0 ≤ v ∧ v ≤ 100 := by
  rcases runModel_trace_cases w with h | ⟨z, hz, h⟩ <;> rw [h] at hv
  · simp only [List.mem_singleton, Event.progress.injEq] at hv
    subst hv
    norm_num
  · rcases List.mem_append.mp hv with h1 | h1
    · obtain ⟨u, hu, he⟩ := List.mem_map.mp h1
      obtain ⟨hu1, hu2⟩ := batch_emit_bounds hu
      cases he
      exact ⟨hu1, by omega⟩
    · simp only [List.mem_singleton, Event.progress.injEq] at h1
      subst h1
      rcases hz with rfl | rfl <;> norm_num

/-- A fully successful two-file run: each file yields per-file progress
10, 20, 30, so the run-level sequence restarts between files. -/
def w4ex : RunWorld :=
  ⟨[⟨"a", false, true, true, [0, 1, 2], 10, fun _ _ => true⟩,
    ⟨"b", false, true, true, [0, 1, 2], 10, fun _ _ => true⟩], id, 30,
   fun _ => true, fun _ => true, fun _ => 10, fun _ => true, true, "o"⟩

/-- Concrete evaluation of the batch stage of `w4ex`. -/
theorem w4ex_batch : batchResult w4ex.files =
    ([⟨"a", 0, 1⟩, ⟨"a", 1, 2⟩, ⟨"a", 2, 10⟩,
      ⟨"b", 0, 1⟩, ⟨"b", 1, 2⟩, ⟨"b", 2, 10⟩], [10, 20, 30, 10, 20, 30]) := by
  show batchResult [⟨"a", false, true, true, [0, 1, 2], 10, fun _ _ => true⟩,
    ⟨"b", false, true, true, [0, 1, 2], 10, fun _ _ => true⟩] = _
  rw [batchResult_eq]
  norm_num [fileContrib, splitVideo, splitPoints, rawPoints, boundaries,
    postprocess_eq, List.filter, cutFile, cutAux, emitVal, rat_floor_eq]

/-- Concrete evaluation of the selection stage of `w4ex`: the six clips sum
to 20 < 30, so all are accepted. -/
theorem w4ex_select : selectLoop w4ex.selOk w4ex.target 0
    (w4ex.shuffle (batchResult w4ex.files).1) =
    ([⟨"a", 0, 1⟩, ⟨"a", 1, 2⟩, ⟨"a", 2, 10⟩,
      ⟨"b", 0, 1⟩, ⟨"b", 1, 2⟩, ⟨"b", 2, 10⟩], 20) := by
  rw [w4ex_batch]
  show selectLoop (fun _ => true) 30 0 [⟨"a", 0, 1⟩, ⟨"a", 1, 2⟩, ⟨"a", 2, 10⟩,
    ⟨"b", 0, 1⟩, ⟨"b", 1, 2⟩, ⟨"b", 2, 10⟩] = _
  norm_num [selectLoop, dur]

/-- Concrete evaluation of the whole `w4ex` run. -/
theorem w4ex_run : runModel w4ex = (.ok "o",
    [.progress 10, .progress 20, .progress 30, .progress 10, .progress 20,
     .progress 30, .progress 100]) := by
  have hne : w4ex.files ≠ [] := by simp [w4ex]
  have hpool : (batchResult w4ex.files).1 ≠ [] := by rw [w4ex_batch]; simp
  have hfin : (selectLoop w4ex.selOk w4ex.target 0
      (w4ex.shuffle (batchResult w4ex.files).1)).1 ≠ [] := by
    rw [w4ex_select]; simp
  have hval : revalidate w4ex (selectLoop w4ex.selOk w4ex.target 0
      (w4ex.shuffle (batchResult w4ex.files).1)).1 ≠ [] := by
    rw [w4ex_select]
    simp [revalidate, w4ex]
  rw [runModel_success hne hpool hfin hval rfl, w4ex_batch]
  rfl

/-- C4 counterexample: in the two-file run `w4ex` the progress channel emits
`10, 20, 30, 10, 20, 30, 100`, which is not monotonically non-decreasing:
the per-file percentage restarts at each new file. -/
theorem progress_not_monotone_across_files :
    progressValues (runModel w4ex).2 = [10, 20, 30, 10, 20, 30, 100] ∧
    ¬ (progressValues (runModel w4ex).2).Chain' (· ≤ ·) := by
  have h : progressValues (runModel w4ex).2 = [10, 20, 30, 10, 20, 30, 100] := by
    rw [w4ex_run]
    rfl
  refine ⟨h, ?_⟩
  rw [h]
  norm_num [List.chain'_cons]

/-- C4 amended: within any single run every emitted progress value lies in
`[0, 100]` and a successful run's last emission is `progress 100`; the
sequence is non-decreasing within each single file's cutting pass, but the
percentage restarts between files, so the run-level sequence need not be
non-decreasing. -/
theorem progress_bounds_and_per_file_monotonicity (w : RunWorld) :
    (∀ v : ℤ, Event.progress v ∈ (runModel w).2 → 0 ≤ v ∧ v ≤ 100) ∧
    (∀ p : String, (runModel w).1 = .ok p →
      (runModel w).2.getLast? = some (.progress 100)) ∧
    (∀ (pa : String) (ok : ℚ → ℚ → Bool) (pts : List ℚ),
      ((cutFile pa ok pts).2).Chain' (· ≤ ·)) := by
  refine ⟨fun v hv => run_progress_bounds w hv, ?_, fun pa ok pts => cutFile_chain pa ok pts⟩
  intro p h
  rw [runModel_ok_trace h]
  exact List.getLast?_concat _

/-- Witness for `progress_bounds_and_per_file_monotonicity` at a concrete
empty-input run, whose sole emission is `progress 0`. -/
theorem progress_bounds_witness :
    Event.progress 0 ∈ (runModel ⟨[], id, 30, fun _ => true, fun _ => true,
      fun _ => 0, fun _ => true, true, "o"⟩).2 ∧ (0 : ℤ) ≤ 0 ∧ (0 : ℤ) ≤ 100 :=
  ⟨by simp [runModel],
   (progress_bounds_and_per_file_monotonicity ⟨[], id, 30, fun _ => true,
     fun _ => true, fun _ => 0, fun _ => true, true, "o"⟩).1 0 (by simp [runModel])⟩
